import Mathlib

/-!
Verification of the Asset-Risk-Footprint library (src/main.py).

The Python source is shallowly embedded as follows:

* Machine floats are modelled as exact real numbers (`ℝ`) for the risk math
  (which uses `sqrt`) and as exact rationals (`ℚ`) for the returns / VaR
  pipeline (which is purely rational).  Where IEEE non-finite values matter
  (`pct_change` on zero prices) cells are modelled by the `PVal` type which
  has explicit `nan` / `inf` / `ninf` markers mirroring numpy semantics.
* Fallible operations (a numpy `ValueError` from an over-sized draw, a pandas
  `KeyError` from a missing ticker, a Python `ValueError` from `list.index`)
  are modelled with `Option`: `none` is a raised exception.
* `numpy.random.Generator` is modelled as a pure word-sized state (`Rng`)
  advanced by a linear congruential step; `Generator.choice(replace=False)`
  is modelled by repeated removal of a generator-chosen index, which draws
  without replacement exactly as the numpy routine does.  Every claim proved
  about sampling depends only on the draw-without-replacement contract and on
  determinism of the generator, not on the particular stream of numbers.
-/

namespace AssetRisk

/-! ### Random generator model -/

/-- Generator state: `numpy.random.default_rng(seed)` is a deterministic
pure function of the integer seed; we model the state as a natural below
`2 ^ 64`. -/
abbrev Rng := Nat

/-- One generator step (a 64-bit linear congruential advance); returns the
drawn word and the new state. -/
def rngNext (r : Rng) : Nat × Rng :=
  let s := (r * 6364136223846793005 + 1442695040888963407) % 18446744073709551616
  (s / 8589934592, s)

/-- `numpy.random.default_rng(seed)`: a fresh deterministic generator built
from the seed alone. -/
def default_rng (seed : Nat) : Rng := seed % 18446744073709551616

/-- Draw `m` elements without replacement from `l`: each step the generator
picks an index into the remaining pool, the element is taken and removed.
Models `rng.choice(l, size=m, replace=False)` (callers guard `m ≤ l.length`;
the `l = []` branch is unreachable under that guard). -/
def drawK : Nat → List String → Rng → List String × Rng
  | 0, _, r => ([], r)
  | m + 1, l, r =>
    if l.length = 0 then ([], r)
    else
      let p := rngNext r
      let i := p.1 % l.length
      let rest := drawK m (l.eraseIdx i) p.2
      (l.getD i "" :: rest.1, rest.2)

lemma drawK_length (m : Nat) (l : List String) (r : Rng) (h : m ≤ l.length) :
    (drawK m l r).1.length = m := by
  induction m generalizing l r with
  | zero => simp [drawK]
  | succ m ih =>
    have hl : l.length ≠ 0 := by omega
    have hi : (rngNext r).1 % l.length < l.length := Nat.mod_lt _ (by omega)
    have herase := List.length_eraseIdx_add_one hi
    simp only [drawK, if_neg hl, List.length_cons]
    rw [ih _ _ (by omega)]

lemma drawK_mem (m : Nat) (l : List String) (r : Rng) :
    ∀ x ∈ (drawK m l r).1, x ∈ l := by
  induction m generalizing l r with
  | zero => simp [drawK]
  | succ m ih =>
    by_cases hl : l.length = 0
    · simp [drawK, hl]
    · have hi : (rngNext r).1 % l.length < l.length := Nat.mod_lt _ (by omega)
      intro x hx
      simp only [drawK, if_neg hl] at hx
      rcases List.mem_cons.mp hx with hx | hx
      · subst hx
        rw [List.getD_eq_getElem l "" hi]
        exact List.getElem_mem hi
      · exact (List.eraseIdx_sublist l _).subset (ih _ _ x hx)

lemma get_not_mem_eraseIdx (l : List String) (i : Nat) (h : i < l.length)
    (hnd : l.Nodup) : l.get ⟨i, h⟩ ∉ l.eraseIdx i := by
  induction l generalizing i with
  | nil => simp at h
  | cons a t ih =>
    rcases List.nodup_cons.mp hnd with ⟨hat, hnt⟩
    match i with
    | 0 => simpa using hat
    | j + 1 =>
      have hj : j < t.length := by simpa using h
      simp only [List.get, List.eraseIdx, List.mem_cons, not_or]
      refine ⟨fun hcontra => hat ?_, ih j hj hnt⟩
      rw [← hcontra]
      exact t.get_mem j hj

lemma drawK_nodup (m : Nat) (l : List String) (r : Rng) (hnd : l.Nodup) :
    (drawK m l r).1.Nodup := by
  induction m generalizing l r with
  | zero => simp [drawK]
  | succ m ih =>
    by_cases hl : l.length = 0
    · simp [drawK, hl]
    · have hi : (rngNext r).1 % l.length < l.length := Nat.mod_lt _ (by omega)
      have hnd2 : (l.eraseIdx ((rngNext r).1 % l.length)).Nodup :=
        (List.eraseIdx_sublist l _).nodup hnd
      simp only [drawK, if_neg hl, List.nodup_cons]
      refine ⟨fun hmem => ?_, ih _ _ hnd2⟩
      have := drawK_mem m _ (rngNext r).2 _ hmem
      rw [List.getD_eq_getElem l "" hi] at this
      exact get_not_mem_eraseIdx l _ hi hnd this

/-! ### Monte Carlo sampler (`sample_portfolio_with_asset`) -/

/-- Embedding of `sample_portfolio_with_asset(universe, asset, k, rng)`:
`others = [u for u in universe if u != asset]`, then
`pick = rng.choice(others, size=k-1, replace=False)`, then
`P = list(np.append(pick, asset))`.  `none` models the `ValueError` raised by
numpy: for `k = 0` the requested size `k - 1` is negative, and a draw larger
than the pool is rejected (`replace=False`). -/
def sample_portfolio_with_asset (uni : List String) (asset : String) (k : Nat)
    (rng : Rng) : Option (List String × Rng) :=
  let others := uni.filter (fun u => u != asset)
  if k = 0 then none
  else if others.length < k - 1 then none
  else
    let pr := drawK (k - 1) others rng
    some (pr.1 ++ [asset], pr.2)

/-- Shared success lemma for the sampler: under a duplicate-free universe that
contains the asset and `1 ≤ k ≤ |universe|`, sampling succeeds and returns
`pick ++ [asset]` with `pick` of size `k - 1`, duplicate-free as a whole, and
every picked symbol an element of `universe \ {asset}`. -/
lemma sample_portfolio_success (uni : List String) (asset : String) (k : Nat)
    (rng : Rng) (hnd : uni.Nodup) (ha : asset ∈ uni) (hk : 1 ≤ k)
    (hku : k ≤ uni.length) :
    ∃ pick rng2,
      sample_portfolio_with_asset uni asset k rng = some (pick ++ [asset], rng2) ∧
      pick.length = k - 1 ∧ (pick ++ [asset]).Nodup ∧
      ∀ x ∈ pick, x ∈ uni ∧ x ≠ asset := by
  have herase : (uni.erase asset) = uni.filter (fun u => u != asset) :=
    hnd.erase_eq_filter asset
  have hlen1 : (uni.erase asset).length + 1 = uni.length :=
    List.length_erase_add_one ha
  have hothers : (uni.filter (fun u => u != asset)).length = uni.length - 1 := by
    rw [← herase]; omega
  have hguard : ¬ (uni.filter (fun u => u != asset)).length < k - 1 := by
    rw [hothers]; omega
  have hk0 : k ≠ 0 := by omega
  refine ⟨(drawK (k - 1) (uni.filter (fun u => u != asset)) rng).1,
          (drawK (k - 1) (uni.filter (fun u => u != asset)) rng).2, ?_, ?_, ?_, ?_⟩
  · simp only [sample_portfolio_with_asset, if_neg hk0, if_neg hguard]
  · exact drawK_length _ _ _ (by rw [hothers]; omega)
  · have hfnd : (uni.filter (fun u => u != asset)).Nodup :=
      (List.filter_sublist uni).nodup hnd
    have hpick := drawK_nodup (k - 1) (uni.filter (fun u => u != asset)) rng hfnd
    rw [List.nodup_append]
    refine ⟨hpick, List.nodup_singleton asset, ?_⟩
    intro x hx hx2
    have := drawK_mem _ _ _ x hx
    rcases List.mem_filter.mp this with ⟨_, hne⟩
    simp only [List.mem_singleton] at hx2
    rw [hx2] at hne
    simp at hne
  · intro x hx
    have := drawK_mem _ _ _ x hx
    rcases List.mem_filter.mp this with ⟨hxu, hne⟩
    exact ⟨hxu, by simpa using hne⟩

/-- C1: for a duplicate-free universe containing `asset`, any `k` with
`1 ≤ k` and `k - 1 ≤ |universe| - 1`, and any generator state,
`sample_portfolio_with_asset` returns exactly `k` distinct symbols, the first
`k - 1` drawn without replacement from `universe \ {asset}` and `asset`
appended as the last element. -/
theorem sample_portfolio_spec (uni : List String) (asset : String) (k : Nat)
    (rng : Rng) (hnd : uni.Nodup) (ha : asset ∈ uni) (hk : 1 ≤ k)
    (hk2 : k - 1 ≤ uni.length - 1) :
    ∃ pick rng2,
      sample_portfolio_with_asset uni asset k rng = some (pick ++ [asset], rng2) ∧
      (pick ++ [asset]).length = k ∧ (pick ++ [asset]).Nodup ∧
      asset ∈ pick ++ [asset] ∧ (pick ++ [asset]).getLast? = some asset ∧
      ∀ x ∈ pick, x ∈ uni ∧ x ≠ asset := by
  have hpos : 1 ≤ uni.length := List.length_pos.mpr (List.ne_nil_of_mem ha)
  obtain ⟨pick, rng2, heq, hlen, hnd2, hmem⟩ :=
    sample_portfolio_success uni asset k rng hnd ha hk (by omega)
  refine ⟨pick, rng2, heq, ?_, hnd2, ?_, List.getLast?_concat pick, hmem⟩
  · simp only [List.length_append, List.length_singleton, hlen]; omega
  · simp

/-- Witness for C1 at a concrete input. -/
theorem sample_portfolio_spec_witness :
    (["A", "B", "C"] : List String).Nodup ∧ "B" ∈ (["A", "B", "C"] : List String) ∧
    1 ≤ 2 ∧ 2 - 1 ≤ (["A", "B", "C"] : List String).length - 1 ∧
    ∃ pick rng2,
      sample_portfolio_with_asset ["A", "B", "C"] "B" 2 7 = some (pick ++ ["B"], rng2) ∧
      (pick ++ ["B"]).length = 2 ∧ (pick ++ ["B"]).Nodup ∧
      "B" ∈ pick ++ ["B"] ∧ (pick ++ ["B"]).getLast? = some "B" ∧
      ∀ x ∈ pick, x ∈ (["A", "B", "C"] : List String) ∧ x ≠ "B" :=
  ⟨by decide, by decide, by decide, by decide,
   sample_portfolio_spec ["A", "B", "C"] "B" 2 7 (by decide) (by decide)
     (by decide) (by decide)⟩

/-- C5: when `k - 1` exceeds the size of `universe \ {asset}` (the list
`others` built by the code), sampling raises (returns `none`, the numpy
`ValueError` for an over-sized draw without replacement); no portfolio is
returned. -/
theorem sample_portfolio_insufficient (uni : List String) (asset : String)
    (k : Nat) (rng : Rng)
    (h : (uni.filter (fun u => u != asset)).length < k - 1) :
    sample_portfolio_with_asset uni asset k rng = none := by
  have hk0 : k ≠ 0 := by
    intro hk
    rw [hk] at h
    omega
  simp only [sample_portfolio_with_asset, if_neg hk0, if_pos h]

/-- Witness for C5 at a concrete input. -/
theorem sample_portfolio_insufficient_witness :
    ((["A", "B"] : List String).filter (fun u => u != "A")).length < 3 - 1 ∧
    sample_portfolio_with_asset ["A", "B"] "A" 3 0 = none :=
  ⟨by decide, sample_portfolio_insufficient ["A", "B"] "A" 3 0 (by decide)⟩

/-! ### Risk math (`portfolio_sigma`, `mrc_for_asset`, `subcov`) -/

/-- Equal weights `w = np.ones(k) / k`. -/
noncomputable def eqWeight (n : Nat) : Fin n → ℝ := fun _ => 1 / n

/-- `cov_P @ w`, component `i`. -/
noncomputable def covW {n : Nat} (cov : Fin n → Fin n → ℝ) (i : Fin n) : ℝ :=
  ∑ j, cov i j * eqWeight n j

/-- `w @ cov_P @ w`: the equal-weight portfolio variance. -/
noncomputable def portVariance {n : Nat} (cov : Fin n → Fin n → ℝ) : ℝ :=
  ∑ i, eqWeight n i * covW cov i

/-- `portfolio_sigma(cov_P) = sqrt(w @ cov_P @ w)`. -/
noncomputable def portfolio_sigma {n : Nat} (cov : Fin n → Fin n → ℝ) : ℝ :=
  Real.sqrt (portVariance cov)

/-- `mrc_vec = (cov_P @ w) / sigma_p` (real division; the Lean convention
`x / 0 = 0` stands in for the IEEE quotient when `sigma_p = 0`, where numpy
emits a non-finite float instead of raising). -/
noncomputable def mrcVec {n : Nat} (cov : Fin n → Fin n → ℝ) (i : Fin n) : ℝ :=
  covW cov i / portfolio_sigma cov

/-- Python `list.index`: first index of `a`, `none` models the `ValueError`
raised when `a` is absent. -/
def pyIndex (a : String) : List String → Option Nat
  | [] => none
  | x :: xs => if x = a then some 0 else (pyIndex a xs).map (· + 1)

/-- Embedding of `mrc_for_asset(cov_P, tickers, asset)`:
`idx = tickers.index(asset)` (raises when absent), then `mrc_vec[idx]`
(raises when `idx` is out of bounds for the `k`-vector). -/
noncomputable def mrc_for_asset {n : Nat} (cov : Fin n → Fin n → ℝ)
    (tickers : List String) (asset : String) : Option ℝ :=
  match pyIndex asset tickers with
  | none => none
  | some idx => if h : idx < n then some (mrcVec cov ⟨idx, h⟩) else none

lemma pyIndex_get (l : List String) (hnd : l.Nodup) (i : Fin l.length) :
    pyIndex (l.get i) l = some i.val := by
  induction l with
  | nil => exact absurd i.2 (by simp)
  | cons x xs ih =>
    rcases List.nodup_cons.mp hnd with ⟨hx, hxs⟩
    match i with
    | ⟨0, h⟩ => simp [pyIndex]
    | ⟨j + 1, h⟩ =>
      have hj : j < xs.length := by simpa using h
      have hne : x ≠ xs.get ⟨j, hj⟩ := fun hc => hx (hc ▸ xs.get_mem j hj)
      have hget : (x :: xs).get ⟨j + 1, h⟩ = xs.get ⟨j, hj⟩ := rfl
      rw [hget]
      simp only [pyIndex, if_neg hne, ih hxs ⟨j, hj⟩, Option.map_some']

/-- C2: the risk decomposition identity.  For a duplicate-free portfolio
`tickers` matching the `n × n` sub-covariance and positive portfolio
variance, the weights dotted with the per-asset marginal risk contributions
reproduce `portfolio_sigma` exactly. -/
theorem risk_decomposition {n : Nat} (cov : Fin n → Fin n → ℝ)
    (tickers : List String) (hlen : tickers.length = n) (hnd : tickers.Nodup)
    (hv : 0 < portVariance cov) :
    (∑ i : Fin n, eqWeight n i *
        (mrc_for_asset cov tickers (tickers.get (Fin.cast hlen.symm i))).getD 0)
      = portfolio_sigma cov := by
  have hσ : 0 < portfolio_sigma cov := Real.sqrt_pos.mpr hv
  have hterm : ∀ i : Fin n,
      (mrc_for_asset cov tickers (tickers.get (Fin.cast hlen.symm i))).getD 0
        = mrcVec cov i := by
    intro i
    have hidx := pyIndex_get tickers hnd (Fin.cast hlen.symm i)
    have hlt : ((Fin.cast hlen.symm i : Fin tickers.length) : Nat) < n := by
      simp
    simp only [mrc_for_asset, hidx, dif_pos hlt, Option.getD_some]
    congr 1
  rw [Finset.sum_congr rfl fun i _ => by rw [hterm i]]
  have hsum : ∑ i, eqWeight n i * mrcVec cov i
      = portVariance cov / portfolio_sigma cov := by
    simp only [mrcVec, portVariance, Finset.sum_div, mul_div_assoc]
  rw [hsum, div_eq_iff hσ.ne']
  exact (Real.mul_self_sqrt hv.le).symm

/-- A concrete `1 × 1` covariance with unit variance, for the C2 witness. -/
def covOne : Fin 1 → Fin 1 → ℝ := fun _ _ => 1

/-- Witness for C2 at a concrete input. -/
theorem risk_decomposition_witness :
    (["A"] : List String).length = 1 ∧ (["A"] : List String).Nodup ∧
    0 < portVariance covOne ∧
    (∑ i : Fin 1, eqWeight 1 i *
        (mrc_for_asset covOne ["A"] ((["A"] : List String).get i)).getD 0)
      = portfolio_sigma covOne :=
  ⟨rfl, by decide,
   by norm_num [portVariance, covW, eqWeight, covOne, Fin.sum_univ_one],
   risk_decomposition covOne ["A"] rfl (by decide)
     (by norm_num [portVariance, covW, eqWeight, covOne, Fin.sum_univ_one])⟩

/-- The all-zero `1 × 1` covariance: every portfolio over it has
`sigma_p = 0`. -/
def covZero : Fin 1 → Fin 1 → ℝ := fun _ _ => 0

/-- C4 (code evaluation at the failing input): with a degenerate
sub-covariance (`sigma_p = 0`) the code does not raise any
`DegenerateRiskError`: `mrc_for_asset` runs the division by zero and returns
a value (`0` under the real-division convention; numpy returns the IEEE
non-finite quotient with only a warning). -/
theorem mrc_zero_variance_returns_value :
    mrc_for_asset covZero ["A"] "A" = some 0 := by
  have hidx : pyIndex "A" ["A"] = some 0 := by simp [pyIndex]
  simp only [mrc_for_asset, hidx, dif_pos (by norm_num : (0 : Nat) < 1)]
  norm_num [mrcVec, covW, covZero, eqWeight, Fin.sum_univ_one]

/-! ### Covariance frame and `subcov` -/

/-- A pandas covariance `DataFrame`: a symbol index plus label-addressed
entries. -/
structure CovDF where
  index : List String
  entry : String → String → ℝ

/-- Embedding of `subcov(cov, tickers)`: `cov.loc[P, P].to_numpy()`, the
square sub-matrix addressed by the tickers in the given order; `none` models
the pandas `KeyError` when some ticker is absent from the index. -/
def subcov (cov : CovDF) (tickers : List String) :
    Option (Fin tickers.length → Fin tickers.length → ℝ) :=
  if ∀ t ∈ tickers, t ∈ cov.index then
    some (fun i j => cov.entry (tickers.get i) (tickers.get j))
  else none

/-- C8: `subcov` returns exactly the sub-matrix of covariances of the
requested tickers, rows and columns ordered as in `tickers`, and raises a
`KeyError` (returns `none`) whenever some ticker is absent from the index. -/
theorem subcov_spec (cov : CovDF) (tickers : List String) :
    ((∀ t ∈ tickers, t ∈ cov.index) →
        subcov cov tickers =
          some (fun i j => cov.entry (tickers.get i) (tickers.get j))) ∧
    ((∃ t ∈ tickers, t ∉ cov.index) → subcov cov tickers = none) := by
  constructor
  · intro h
    rw [subcov, if_pos h]
  · rintro ⟨t, ht, htn⟩
    rw [subcov, if_neg]
    intro hall
    exact htn (hall t ht)

/-- A concrete two-symbol covariance frame for witnesses. -/
def covEx : CovDF :=
  ⟨["A", "B"], fun a b => if a = b then 1 else 0⟩

/-- Witness for C8 at concrete inputs: one present ticker list, one absent. -/
theorem subcov_spec_witness :
    (∀ t ∈ (["A"] : List String), t ∈ covEx.index) ∧
    (∃ t ∈ (["Z"] : List String), t ∉ covEx.index) ∧
    subcov covEx ["A"] =
      some (fun i j => covEx.entry ((["A"] : List String).get i)
        ((["A"] : List String).get j)) ∧
    subcov covEx ["Z"] = none :=
  ⟨by decide, ⟨"Z", by decide, by decide⟩,
   (subcov_spec covEx ["A"]).1 (by decide),
   (subcov_spec covEx ["Z"]).2 ⟨"Z", by decide, by decide⟩⟩

/-! ### Monte Carlo estimators (`expected_sigma_and_se`, `expected_mrc`) -/

/-- `np.mean`: sum over length. -/
noncomputable def listMean (xs : List ℝ) : ℝ := xs.sum / xs.length

/-- `np.std(xs, ddof=1)`: square root of the sum of squared deviations over
`n - 1`. -/
noncomputable def sampleStd (xs : List ℝ) : ℝ :=
  Real.sqrt ((xs.map (fun x => (x - listMean xs) ^ 2)).sum / ((xs.length : ℝ) - 1))

/-- The loop body of `expected_sigma_and_se`: `num_sims` trials, each drawing
a portfolio, extracting its sub-covariance and recording
`portfolio_sigma(cov_P)`; any raised error aborts the whole call. -/
noncomputable def trialSigmas (uni : List String) (cov : CovDF) (asset : String)
    (k : Nat) : Nat → Rng → Option (List ℝ)
  | 0, _ => some []
  | n + 1, r =>
    match sample_portfolio_with_asset uni asset k r with
    | none => none
    | some (P, r2) =>
      match subcov cov P with
      | none => none
      | some M =>
        match trialSigmas uni cov asset k n r2 with
        | none => none
        | some rest => some (portfolio_sigma M :: rest)

/-- Embedding of `expected_sigma_and_se(universe, cov, asset, k, num_sims,
seed)`: a fresh generator from the seed, the trial loop, then
`(mean(sigmas), std(sigmas, ddof=1) / sqrt(num_sims))`. -/
noncomputable def expected_sigma_and_se (uni : List String) (cov : CovDF)
    (asset : String) (k num_sims seed : Nat) : Option (ℝ × ℝ) :=
  match trialSigmas uni cov asset k num_sims (default_rng seed) with
  | none => none
  | some sigmas => some (listMean sigmas, sampleStd sigmas / Real.sqrt num_sims)

/-- The loop body of `expected_mrc`: same trial shape, recording
`mrc_for_asset(cov_P, P, asset)` instead. -/
noncomputable def trialMrcs (uni : List String) (cov : CovDF) (asset : String)
    (k : Nat) : Nat → Rng → Option (List ℝ)
  | 0, _ => some []
  | n + 1, r =>
    match sample_portfolio_with_asset uni asset k r with
    | none => none
    | some (P, r2) =>
      match subcov cov P with
      | none => none
      | some M =>
        match mrc_for_asset M P asset with
        | none => none
        | some v =>
          match trialMrcs uni cov asset k n r2 with
          | none => none
          | some rest => some (v :: rest)

/-- Embedding of `expected_mrc(...)`: fresh generator from the seed, the MRC
trial loop, then the mean (no standard error is reported). -/
noncomputable def expected_mrc (uni : List String) (cov : CovDF)
    (asset : String) (k num_sims seed : Nat) : Option ℝ :=
  match trialMrcs uni cov asset k num_sims (default_rng seed) with
  | none => none
  | some vals => some (listMean vals)

/-- The sequence of portfolios a generator-threading loop of `n` trials
draws; both estimators consume randomness only through
`sample_portfolio_with_asset`, so this is their common portfolio stream. -/
def samplePortfolios (uni : List String) (asset : String) (k : Nat) :
    Nat → Rng → Option (List (List String))
  | 0, _ => some []
  | n + 1, r =>
    match sample_portfolio_with_asset uni asset k r with
    | none => none
    | some (P, r2) =>
      match samplePortfolios uni asset k n r2 with
      | none => none
      | some Ps => some (P :: Ps)

/-- Per-portfolio volatility statistic, applied portfolio by portfolio. -/
noncomputable def sigmasOfPortfolios (cov : CovDF) :
    List (List String) → Option (List ℝ)
  | [] => some []
  | P :: Ps =>
    match subcov cov P with
    | none => none
    | some M =>
      match sigmasOfPortfolios cov Ps with
      | none => none
      | some rest => some (portfolio_sigma M :: rest)

/-- Per-portfolio MRC statistic, applied portfolio by portfolio. -/
noncomputable def mrcsOfPortfolios (cov : CovDF) (asset : String) :
    List (List String) → Option (List ℝ)
  | [] => some []
  | P :: Ps =>
    match subcov cov P with
    | none => none
    | some M =>
      match mrc_for_asset M P asset with
      | none => none
      | some v =>
        match mrcsOfPortfolios cov asset Ps with
        | none => none
        | some rest => some (v :: rest)

lemma trialSigmas_eq (uni : List String) (cov : CovDF) (asset : String)
    (k : Nat) : ∀ (n : Nat) (r : Rng),
    trialSigmas uni cov asset k n r =
      match samplePortfolios uni asset k n r with
      | none => none
      | some Ps => sigmasOfPortfolios cov Ps := by
  intro n
  induction n with
  | zero =>
    intro r
    simp [trialSigmas, samplePortfolios, sigmasOfPortfolios]
  | succ n ih =>
    intro r
    cases hs : sample_portfolio_with_asset uni asset k r with
    | none => simp [trialSigmas, samplePortfolios, hs]
    | some pr =>
      obtain ⟨P, r2⟩ := pr
      cases hc : subcov cov P with
      | none =>
        cases hr : samplePortfolios uni asset k n r2 with
        | none => simp [trialSigmas, samplePortfolios, hs, hc, hr]
        | some Ps => simp [trialSigmas, samplePortfolios, sigmasOfPortfolios, hs, hc, hr]
      | some M =>
        have := ih r2
        cases hr : samplePortfolios uni asset k n r2 with
        | none =>
          rw [hr] at this
          simp only at this
          simp [trialSigmas, samplePortfolios, hs, hc, hr, this]
        | some Ps =>
          rw [hr] at this
          simp only at this
          simp [trialSigmas, samplePortfolios, sigmasOfPortfolios, hs, hc, hr, this]

lemma trialMrcs_eq (uni : List String) (cov : CovDF) (asset : String)
    (k : Nat) : ∀ (n : Nat) (r : Rng),
    trialMrcs uni cov asset k n r =
      match samplePortfolios uni asset k n r with
      | none => none
      | some Ps => mrcsOfPortfolios cov asset Ps := by
  intro n
  induction n with
  | zero =>
    intro r
    simp [trialMrcs, samplePortfolios, mrcsOfPortfolios]
  | succ n ih =>
    intro r
    cases hs : sample_portfolio_with_asset uni asset k r with
    | none => simp [trialMrcs, samplePortfolios, hs]
    | some pr =>
      obtain ⟨P, r2⟩ := pr
      cases hc : subcov cov P with
      | none =>
        cases hr : samplePortfolios uni asset k n r2 with
        | none => simp [trialMrcs, samplePortfolios, hs, hc, hr]
        | some Ps => simp [trialMrcs, samplePortfolios, mrcsOfPortfolios, hs, hc, hr]
      | some M =>
        cases hm : mrc_for_asset M P asset with
        | none =>
          cases hr : samplePortfolios uni asset k n r2 with
          | none => simp [trialMrcs, samplePortfolios, hs, hc, hm, hr]
          | some Ps => simp [trialMrcs, samplePortfolios, mrcsOfPortfolios, hs, hc, hm, hr]
        | some v =>
          have := ih r2
          cases hr : samplePortfolios uni asset k n r2 with
          | none =>
            rw [hr] at this
            simp only at this
            simp [trialMrcs, samplePortfolios, hs, hc, hm, hr, this]
          | some Ps =>
            rw [hr] at this
            simp only at this
            simp [trialMrcs, samplePortfolios, mrcsOfPortfolios, hs, hc, hm, hr, this]

/-- C3: `expected_sigma_and_se` is a pure function of its arguments — it
builds a fresh deterministic generator from the seed — so two calls with
identical arguments (in particular the same seed) return bit-identical
`(mean, se)` pairs. -/
theorem expected_sigma_and_se_deterministic (uni : List String) (cov : CovDF)
    (asset : String) (k num_sims : Nat) (seed1 seed2 : Nat) (h : seed1 = seed2) :
    expected_sigma_and_se uni cov asset k num_sims seed1 =
      expected_sigma_and_se uni cov asset k num_sims seed2 := by
  rw [h]

/-- Witness for C3 at a concrete input. -/
theorem expected_sigma_and_se_deterministic_witness :
    42 = 42 ∧
    expected_sigma_and_se ["A", "B"] covEx "A" 1 1 42 =
      expected_sigma_and_se ["A", "B"] covEx "A" 1 1 42 :=
  ⟨rfl, expected_sigma_and_se_deterministic ["A", "B"] covEx "A" 1 1 42 42 rfl⟩

lemma samplePortfolios_success (uni : List String) (asset : String) (k : Nat)
    (hnd : uni.Nodup) (ha : asset ∈ uni) (hk : 1 ≤ k) (hku : k ≤ uni.length) :
    ∀ (n : Nat) (r : Rng),
    ∃ Ps, samplePortfolios uni asset k n r = some Ps ∧ Ps.length = n ∧
      ∀ P ∈ Ps, asset ∈ P ∧ P.length = k ∧ ∀ x ∈ P, x ∈ uni := by
  intro n
  induction n with
  | zero => exact fun r => ⟨[], rfl, rfl, by simp⟩
  | succ n ih =>
    intro r
    obtain ⟨pick, r2, heq, hlen, _, hmem⟩ :=
      sample_portfolio_success uni asset k r hnd ha hk hku
    obtain ⟨Ps, hPs, hlen2, hall⟩ := ih r2
    refine ⟨(pick ++ [asset]) :: Ps, ?_, by simp [hlen2], ?_⟩
    · simp [samplePortfolios, heq, hPs]
    · intro P hP
      rcases List.mem_cons.mp hP with rfl | hP
      · refine ⟨by simp, ?_, ?_⟩
        · simp only [List.length_append, List.length_singleton, hlen]; omega
        · intro x hx
          rcases List.mem_append.mp hx with hx | hx
          · exact (hmem x hx).1
          · simp only [List.mem_singleton] at hx
            subst hx
            exact ha
      · exact hall P hP

lemma sigmasOfPortfolios_success (cov : CovDF) :
    ∀ Ps : List (List String), (∀ P ∈ Ps, ∀ x ∈ P, x ∈ cov.index) →
    ∃ sg, sigmasOfPortfolios cov Ps = some sg ∧ sg.length = Ps.length := by
  intro Ps
  induction Ps with
  | nil => exact fun _ => ⟨[], rfl, rfl⟩
  | cons P Ps ih =>
    intro hall
    have hsub : subcov cov P = some (fun i j => cov.entry (P.get i) (P.get j)) := by
      rw [subcov, if_pos (hall P (List.mem_cons_self P Ps))]
    obtain ⟨sg, hsg, hlensg⟩ := ih fun Q hQ => hall Q (List.mem_cons_of_mem P hQ)
    refine ⟨portfolio_sigma (fun i j => cov.entry (P.get i) (P.get j)) :: sg, ?_, ?_⟩
    · simp [sigmasOfPortfolios, hsub, hsg]
    · simp [hlensg]

/-- C9: under valid inputs (duplicate-free universe containing the asset,
`1 ≤ k ≤ |universe|`, all symbols covered by the covariance index,
`num_sims ≥ 1`), `expected_sigma_and_se` returns exactly the pair
`(mean of the num_sims portfolio volatilities,
std(volatilities, ddof=1) / sqrt(num_sims))`, where each volatility is
`portfolio_sigma` of the sub-covariance of a sampled portfolio that contains
the asset. -/
theorem expected_sigma_and_se_spec (uni : List String) (cov : CovDF)
    (asset : String) (k num_sims seed : Nat) (hnd : uni.Nodup) (ha : asset ∈ uni)
    (hk : 1 ≤ k) (hku : k ≤ uni.length) (hcov : ∀ s ∈ uni, s ∈ cov.index)
    (_hn : 1 ≤ num_sims) :
    ∃ Ps sg,
      samplePortfolios uni asset k num_sims (default_rng seed) = some Ps ∧
      Ps.length = num_sims ∧ (∀ P ∈ Ps, asset ∈ P ∧ P.length = k) ∧
      sigmasOfPortfolios cov Ps = some sg ∧
      expected_sigma_and_se uni cov asset k num_sims seed =
        some (listMean sg, sampleStd sg / Real.sqrt num_sims) := by
  obtain ⟨Ps, hPs, hlen, hall⟩ :=
    samplePortfolios_success uni asset k hnd ha hk hku num_sims (default_rng seed)
  obtain ⟨sg, hsg, _⟩ :=
    sigmasOfPortfolios_success cov Ps fun P hP x hx => hcov x ((hall P hP).2.2 x hx)
  have htr := trialSigmas_eq uni cov asset k num_sims (default_rng seed)
  rw [hPs] at htr
  simp only at htr
  rw [hsg] at htr
  refine ⟨Ps, sg, hPs, hlen, fun P hP => ⟨(hall P hP).1, (hall P hP).2.1⟩, hsg, ?_⟩
  simp [expected_sigma_and_se, htr]

/-- Witness for C9 at a concrete input. -/
theorem expected_sigma_and_se_spec_witness :
    (["A", "B"] : List String).Nodup ∧ "A" ∈ (["A", "B"] : List String) ∧
    1 ≤ 1 ∧ 1 ≤ (["A", "B"] : List String).length ∧
    (∀ s ∈ (["A", "B"] : List String), s ∈ covEx.index) ∧ 1 ≤ 1 ∧
    ∃ Ps sg,
      samplePortfolios ["A", "B"] "A" 1 1 (default_rng 0) = some Ps ∧
      Ps.length = 1 ∧ (∀ P ∈ Ps, "A" ∈ P ∧ P.length = 1) ∧
      sigmasOfPortfolios covEx Ps = some sg ∧
      expected_sigma_and_se ["A", "B"] covEx "A" 1 1 0 =
        some (listMean sg, sampleStd sg / Real.sqrt ((1 : Nat) : ℝ)) :=
  ⟨by decide, by decide, by decide, by decide, by decide, by decide,
   expected_sigma_and_se_spec ["A", "B"] covEx "A" 1 1 0 (by decide) (by decide)
     (by decide) (by decide) (by decide) (by decide)⟩

/-- C10: the two estimators draw the exact same portfolio sequence.  Each
builds a fresh generator from the same seed and consumes randomness only via
`sample_portfolio_with_asset`, so both factor through one common
`samplePortfolios` stream, with the per-trial statistic applied to the same
`i`-th portfolio. -/
theorem estimators_share_portfolios (uni : List String) (cov : CovDF)
    (asset : String) (k num_sims seed : Nat) :
    expected_sigma_and_se uni cov asset k num_sims seed =
      (samplePortfolios uni asset k num_sims (default_rng seed)).bind
        (fun Ps => (sigmasOfPortfolios cov Ps).map
          (fun sg => (listMean sg, sampleStd sg / Real.sqrt num_sims))) ∧
    expected_mrc uni cov asset k num_sims seed =
      (samplePortfolios uni asset k num_sims (default_rng seed)).bind
        (fun Ps => (mrcsOfPortfolios cov asset Ps).map listMean) := by
  constructor
  · have htr := trialSigmas_eq uni cov asset k num_sims (default_rng seed)
    cases hr : samplePortfolios uni asset k num_sims (default_rng seed) with
    | none =>
      rw [hr] at htr
      simp only at htr
      simp [expected_sigma_and_se, htr]
    | some Ps =>
      rw [hr] at htr
      simp only at htr
      cases hs : sigmasOfPortfolios cov Ps with
      | none => simp [expected_sigma_and_se, htr, hs]
      | some sg => simp [expected_sigma_and_se, htr, hs]
  · have htr := trialMrcs_eq uni cov asset k num_sims (default_rng seed)
    cases hr : samplePortfolios uni asset k num_sims (default_rng seed) with
    | none =>
      rw [hr] at htr
      simp only at htr
      simp [expected_mrc, htr]
    | some Ps =>
      rw [hr] at htr
      simp only at htr
      cases hs : mrcsOfPortfolios cov asset Ps with
      | none => simp [expected_mrc, htr, hs]
      | some vs => simp [expected_mrc, htr, hs]

/-! ### Price panel cells and `returns_from_prices` -/

/-- A float cell of a pandas panel: missing (`NaN`), `+inf`, `-inf`, or a
finite value (modelled exactly as a rational). -/
inductive PVal where
  | nan : PVal
  | inf : PVal
  | ninf : PVal
  | val : ℚ → PVal
deriving DecidableEq

/-- One cell of `prices.pct_change()`: `(cur - prev) / prev` with IEEE
semantics.  A zero previous price divides by zero: numpy yields `+inf` /
`-inf` for a nonzero numerator and `NaN` only for `0 / 0`; a missing operand
propagates `NaN`.  (Price panels hold only finite or missing cells, so the
non-finite operand cases collapse to `NaN`.) -/
def pctCell : PVal → PVal → PVal
  | PVal.val p, PVal.val c =>
    if p = 0 then
      if 0 < c then PVal.inf else if c < 0 then PVal.ninf else PVal.nan
    else PVal.val ((c - p) / p)
  | _, _ => PVal.nan

/-- Is the cell the missing-value marker?  `dropna` tests exactly this:
infinities are NOT missing. -/
def isNan : PVal → Bool
  | PVal.nan => true
  | _ => false

/-- `prices.pct_change()`: the first row (no previous value) is all-`NaN`,
and each later row is the cellwise `pctCell` of the previous and current
price rows. -/
def pct_change (rows : List (List PVal)) : List (List PVal) :=
  match rows with
  | [] => []
  | r :: rest =>
    (r.map fun _ => PVal.nan) ::
      List.zipWith (fun prev cur => List.zipWith pctCell prev cur) (r :: rest) rest

/-- `.dropna()`: keep exactly the rows with no missing cell. -/
def dropna (rows : List (List PVal)) : List (List PVal) :=
  rows.filter fun row => !(row.any isNan)

/-- Embedding of `returns_from_prices(prices)`:
`prices.pct_change().dropna()`. -/
def returns_from_prices (rows : List (List PVal)) : List (List PVal) :=
  dropna (pct_change rows)

/-- Counterexample to C6: the panel `[[1], [0], [2]]` has a zero price at
date 1; the return cell for date 2 is `(2 - 0) / 0 = +inf`, NOT a missing
marker, and the date-2 row `[+inf]` survives `dropna` — the claim says it is
dropped. -/
theorem returns_zero_price_row_kept :
    returns_from_prices [[PVal.val 1], [PVal.val 0], [PVal.val 2]]
        = [[PVal.val (-1)], [PVal.inf]] ∧
    [PVal.inf] ∈ returns_from_prices [[PVal.val 1], [PVal.val 0], [PVal.val 2]] ∧
    isNan PVal.inf = false := by
  have h1 : pctCell (PVal.val 1) (PVal.val 0) = PVal.val (-1) := by
    rw [pctCell, if_neg (by norm_num : ¬ (1 : ℚ) = 0)]
    norm_num
  have h2 : pctCell (PVal.val 0) (PVal.val 2) = PVal.inf := by
    rw [pctCell, if_pos rfl, if_pos (by norm_num : (0 : ℚ) < 2)]
  refine ⟨?_, ?_, rfl⟩
  · simp [returns_from_prices, pct_change, dropna, h1, h2, isNan]
  · simp [returns_from_prices, pct_change, dropna, h1, h2, isNan]

/-- C6 amended: a zero previous price produces the missing marker only in the
`0 / 0` case — when the current price is also zero.  Then the `pct_change`
row for date `t+1` holds `NaN` at that symbol and the whole row is dropped
from the returned panel. -/
theorem returns_zero_over_zero_row_dropped (rows : List (List PVal)) (t j : Nat)
    (ht : t + 1 < rows.length)
    (hj1 : j < (rows.get ⟨t, by omega⟩).length)
    (hj2 : j < (rows.get ⟨t + 1, ht⟩).length)
    (hprev : (rows.get ⟨t, by omega⟩).get ⟨j, hj1⟩ = PVal.val 0)
    (hcur : (rows.get ⟨t + 1, ht⟩).get ⟨j, hj2⟩ = PVal.val 0) :
    ∃ row, (pct_change rows)[t + 1]? = some row ∧ row[j]? = some PVal.nan ∧
      row ∉ returns_from_prices rows := by
  have hnan : pctCell (PVal.val 0) (PVal.val 0) = PVal.nan := by
    rw [pctCell, if_pos rfl]
    norm_num
  match rows, ht with
  | r0 :: rest, ht =>
    have hrest : t < rest.length := by
      simpa using ht
    have hzip : t < (List.zipWith
        (fun prev cur => List.zipWith pctCell prev cur) (r0 :: rest) rest).length := by
      simp only [List.length_zipWith, List.length_cons]
      omega
    refine ⟨List.zipWith pctCell ((r0 :: rest).get ⟨t, by omega⟩) (rest.get ⟨t, hrest⟩),
      ?_, ?_, ?_⟩
    · simp only [pct_change, List.getElem?_cons_succ]
      rw [List.getElem?_eq_getElem hzip]
      simp [List.getElem_zipWith, List.get_eq_getElem]
    · have hj2' : j < (rest.get ⟨t, hrest⟩).length := by
        simpa using hj2
      have hjz : j < (List.zipWith pctCell ((r0 :: rest).get ⟨t, by omega⟩)
          (rest.get ⟨t, hrest⟩)).length := by
        simp only [List.length_zipWith]
        omega
      rw [List.getElem?_eq_getElem hjz]
      simp only [List.getElem_zipWith, Option.some.injEq]
      have hp : ((r0 :: rest).get ⟨t, by omega⟩)[j] = PVal.val 0 := hprev
      have hc : (rest.get ⟨t, hrest⟩)[j] = PVal.val 0 := hcur
      rw [hp, hc, hnan]
    · intro hmem
      have hfilter := (List.mem_filter.mp hmem).2
      have hnanmem : PVal.nan ∈ List.zipWith pctCell ((r0 :: rest).get ⟨t, by omega⟩)
          (rest.get ⟨t, hrest⟩) := by
        have hj2' : j < (rest.get ⟨t, hrest⟩).length := by
          simpa using hj2
        have hjz : j < (List.zipWith pctCell ((r0 :: rest).get ⟨t, by omega⟩)
            (rest.get ⟨t, hrest⟩)).length := by
          simp only [List.length_zipWith]
          omega
        have hp : ((r0 :: rest).get ⟨t, by omega⟩)[j] = PVal.val 0 := hprev
        have hc : (rest.get ⟨t, hrest⟩)[j] = PVal.val 0 := hcur
        have : (List.zipWith pctCell ((r0 :: rest).get ⟨t, by omega⟩)
            (rest.get ⟨t, hrest⟩))[j] = PVal.nan := by
          rw [List.getElem_zipWith, hp, hc, hnan]
        rw [← this]
        exact List.getElem_mem hjz
      have : (List.zipWith pctCell ((r0 :: rest).get ⟨t, by omega⟩)
          (rest.get ⟨t, hrest⟩)).any isNan = true :=
        List.any_eq_true.mpr ⟨PVal.nan, hnanmem, rfl⟩
      rw [this] at hfilter
      simp at hfilter

/-- Witness for the amended C6 at a concrete input. -/
theorem returns_zero_over_zero_row_dropped_witness :
    0 + 1 < ([[PVal.val 0], [PVal.val 0]] : List (List PVal)).length ∧
    (([[PVal.val 0], [PVal.val 0]] : List (List PVal)).get ⟨0, by decide⟩).get
      ⟨0, by decide⟩ = PVal.val 0 ∧
    (([[PVal.val 0], [PVal.val 0]] : List (List PVal)).get ⟨1, by decide⟩).get
      ⟨0, by decide⟩ = PVal.val 0 ∧
    ∃ row, (pct_change [[PVal.val 0], [PVal.val 0]])[0 + 1]? = some row ∧
      row[0]? = some PVal.nan ∧
      row ∉ returns_from_prices [[PVal.val 0], [PVal.val 0]] :=
  ⟨by decide, rfl, rfl,
   returns_zero_over_zero_row_dropped [[PVal.val 0], [PVal.val 0]] 0 0
     (by decide) (by decide) (by decide) rfl rfl⟩

/-! ### Historical VaR (`portfolio_returns`, `historical_var`) -/

/-- A pandas returns `DataFrame`: a date index, column labels, and one row of
cells per date (cells are finite rationals or missing). -/
structure ReturnsDF where
  dates : List Nat
  cols : List String
  rows : List (List (Option ℚ))

/-- Equal-weight dot product of one row: `sub @ w` with `w = 1/k` each; a
missing cell propagates (`NaN` arithmetic). -/
def rowDot (cells : List (Option ℚ)) (k : Nat) : Option ℚ :=
  cells.foldr
    (fun c acc =>
      match c, acc with
      | some x, some a => some (x * (1 / (k : ℚ)) + a)
      | _, _ => none)
    (some 0)

/-- Label-based column selection (`.loc[:, P]`): the position of each
requested symbol, `none` models the pandas `KeyError` when one is absent. -/
def colIdx (cols : List String) : List String → Option (List Nat)
  | [] => some []
  | p :: ps =>
    match pyIndex p cols, colIdx cols ps with
    | some i, some rest => some (i :: rest)
    | _, _ => none

/-- Embedding of `portfolio_returns(returns, P, start, end)`: slice the rows
to the closed date interval `[s, e]`, select the `P` columns, and take the
equal-weight dot product per row. -/
def portfolio_returns (df : ReturnsDF) (P : List String) (s e : Nat) :
    Option (List (Option ℚ)) :=
  match colIdx df.cols P with
  | none => none
  | some idxs =>
    some (((df.dates.zip df.rows).filter
      (fun dr => decide (s ≤ dr.1) && decide (dr.1 ≤ e))).map
        (fun dr => rowDot (idxs.map (fun i => dr.2.getD i none)) P.length))

/-- The non-missing values of a series (`nanquantile` ignores `NaN`). -/
def finiteVals (xs : List (Option ℚ)) : List ℚ := xs.filterMap id

/-- The non-missing values sorted ascending. -/
def sortedVals (xs : List (Option ℚ)) : List ℚ :=
  List.insertionSort (fun a b => a ≤ b) (finiteVals xs)

/-- Lower interpolation index for the `a`-quantile of `m` order statistics:
`⌊a * (m - 1)⌋`, clamped into range. -/
def quantileIdxLow (m : Nat) (a : ℚ) : Nat :=
  min ⌊a * ((m : ℚ) - 1)⌋.toNat (m - 1)

/-- Upper interpolation index: the next order statistic, clamped. -/
def quantileIdxHigh (m : Nat) (a : ℚ) : Nat :=
  min (quantileIdxLow m a + 1) (m - 1)

/-- Linear interpolation between the two order statistics bracketing virtual
rank `a * (m - 1)` (numpy's default `linear` method). -/
def interpolate (vals : List ℚ) (a : ℚ) : ℚ :=
  vals.getD (quantileIdxLow vals.length a) 0 +
    (a * ((vals.length : ℚ) - 1) - (quantileIdxLow vals.length a : ℚ)) *
      (vals.getD (quantileIdxHigh vals.length a) 0 -
        vals.getD (quantileIdxLow vals.length a) 0)

/-- `np.nanquantile(xs, a)`: reject an out-of-range `a` (numpy raises),
ignore missing values, return `none` for an all-missing series (numpy's
`NaN` result), else linearly interpolate between order statistics. -/
def nanquantile (xs : List (Option ℚ)) (a : ℚ) : Option ℚ :=
  if a < 0 ∨ 1 < a then none
  else if (sortedVals xs).length = 0 then none
  else some (interpolate (sortedVals xs) a)

/-- Embedding of `historical_var(returns, P, start, end, confidence)`:
`alpha = 1 - confidence`, the `alpha`-quantile of the portfolio-return
series, negated.  The outer `Option` is the `KeyError` from column
selection; the inner one is numpy's `NaN`/invalid-quantile outcome. -/
def historical_var (df : ReturnsDF) (P : List String) (s e : Nat)
    (confidence : ℚ) : Option (Option ℚ) :=
  match portfolio_returns df P s e with
  | none => none
  | some rp => some ((nanquantile rp (1 - confidence)).map (fun q => -q))

lemma nanquantile_some (xs : List (Option ℚ)) (a : ℚ) (h0 : 0 ≤ a)
    (h1 : a ≤ 1) (hne : sortedVals xs ≠ []) :
    nanquantile xs a = some (interpolate (sortedVals xs) a) := by
  rw [nanquantile, if_neg, if_neg]
  · exact fun h => hne (List.length_eq_zero.mp h)
  · push_neg
    exact ⟨by linarith, by linarith⟩

lemma quantileIdxLow_eq (m : Nat) (a : ℚ) (h0 : 0 ≤ a) (h1 : a ≤ 1)
    (hm : 1 ≤ m) :
    quantileIdxLow m a = ⌊a * ((m : ℚ) - 1)⌋.toNat ∧
    (⌊a * ((m : ℚ) - 1)⌋.toNat : ℚ) = ⌊a * ((m : ℚ) - 1)⌋ ∧
    quantileIdxLow m a ≤ m - 1 := by
  have hm1 : (0 : ℚ) ≤ (m : ℚ) - 1 := by
    have : (1 : ℚ) ≤ (m : ℚ) := by exact_mod_cast hm
    linarith
  have hh0 : 0 ≤ a * ((m : ℚ) - 1) := mul_nonneg h0 hm1
  have hh1 : a * ((m : ℚ) - 1) ≤ (m : ℚ) - 1 := by
    nlinarith
  have hfl0 : 0 ≤ ⌊a * ((m : ℚ) - 1)⌋ := Int.floor_nonneg.mpr hh0
  have hfme : ⌊(m : ℚ) - 1⌋ = (m : ℤ) - 1 := by
    rw [show ((m : ℚ) - 1) = (((m : ℤ) - 1 : ℤ) : ℚ) by push_cast; ring,
      Int.floor_intCast]
  have hflm : ⌊a * ((m : ℚ) - 1)⌋ ≤ (m : ℤ) - 1 :=
    le_trans (Int.floor_le_floor hh1) (le_of_eq hfme)
  have htn : ⌊a * ((m : ℚ) - 1)⌋.toNat ≤ m - 1 := by omega
  refine ⟨min_eq_left htn, ?_, ?_⟩
  · exact_mod_cast Int.toNat_of_nonneg hfl0
  · exact min_le_right _ _

lemma interpolate_le_high (vals : List ℚ) (a : ℚ) (h0 : 0 ≤ a) (h1 : a ≤ 1)
    (hne : vals ≠ []) (hsorted : vals.Sorted (fun x y => x ≤ y)) :
    interpolate vals a ≤ vals.getD (quantileIdxHigh vals.length a) 0 := by
  have hm : 1 ≤ vals.length := List.length_pos.mpr hne
  obtain ⟨hlow, hcast, hlowle⟩ := quantileIdxLow_eq vals.length a h0 h1 hm
  have hi : quantileIdxLow vals.length a < vals.length := by omega
  have hj : quantileIdxHigh vals.length a < vals.length := by
    rw [quantileIdxHigh]
    omega
  have hij : quantileIdxLow vals.length a ≤ quantileIdxHigh vals.length a := by
    rw [quantileIdxHigh]
    omega
  have hxij : vals.getD (quantileIdxLow vals.length a) 0 ≤
      vals.getD (quantileIdxHigh vals.length a) 0 := by
    rw [List.getD_eq_getElem vals 0 hi, List.getD_eq_getElem vals 0 hj]
    exact hsorted.rel_get_of_le (by exact hij)
  have hg0 : 0 ≤ a * ((vals.length : ℚ) - 1) - (quantileIdxLow vals.length a : ℚ) := by
    rw [hlow, hcast]
    have := Int.floor_le (a * ((vals.length : ℚ) - 1))
    linarith
  have hg1 : a * ((vals.length : ℚ) - 1) - (quantileIdxLow vals.length a : ℚ) ≤ 1 := by
    rw [hlow, hcast]
    have := Int.lt_floor_add_one (a * ((vals.length : ℚ) - 1))
    push_cast at this ⊢
    linarith
  rw [interpolate]
  have hmul := mul_le_mul_of_nonneg_right hg1 (sub_nonneg.mpr hxij)
  linarith

/-- C7 amended: `historical_var` is the negation of the linearly interpolated
`(1-c)`-quantile of the non-missing equal-weight portfolio returns over
`[s, e]`, and it is non-negative whenever the order statistic at the upper
interpolation index `min(⌊(1-c)(m-1)⌋ + 1, m-1)` of the sorted series is
non-positive. -/
theorem historical_var_spec (df : ReturnsDF) (P : List String) (s e : Nat)
    (c : ℚ) (hc0 : 0 ≤ c) (hc1 : c ≤ 1) (series : List (Option ℚ))
    (hp : portfolio_returns df P s e = some series)
    (hne : sortedVals series ≠ []) :
    ∃ q, nanquantile series (1 - c) = some q ∧
      historical_var df P s e c = some (some (-q)) ∧
      q ≤ (sortedVals series).getD
        (quantileIdxHigh (sortedVals series).length (1 - c)) 0 ∧
      ((sortedVals series).getD
          (quantileIdxHigh (sortedVals series).length (1 - c)) 0 ≤ 0 →
        0 ≤ -q) := by
  have h0 : 0 ≤ 1 - c := by linarith
  have h1 : (1 : ℚ) - c ≤ 1 := by linarith
  have hq := nanquantile_some series (1 - c) h0 h1 hne
  have hsorted : (sortedVals series).Sorted (fun x y => x ≤ y) :=
    List.sorted_insertionSort _ _
  have hle := interpolate_le_high (sortedVals series) (1 - c) h0 h1 hne hsorted
  refine ⟨interpolate (sortedVals series) (1 - c), hq, ?_, hle,
    fun hh => by linarith⟩
  simp [historical_var, hp, hq]

/-- A concrete returns frame for C7: two dates, one symbol, returns
`-1` and `100`. -/
def varDF : ReturnsDF := ⟨[0, 1], ["A"], [[some (-1)], [some 100]]⟩

lemma varDF_returns :
    portfolio_returns varDF ["A"] 0 1 = some [some (-1 : ℚ), some 100] := by
  have hidx : pyIndex "A" ["A"] = some 0 := by simp [pyIndex]
  simp only [portfolio_returns, colIdx, varDF, hidx]
  norm_num [rowDot]

lemma varDF_sorted : sortedVals [some (-1 : ℚ), some 100] = [-1, 100] := by
  have hf : finiteVals [some (-1 : ℚ), some 100] = [-1, 100] := by
    simp [finiteVals]
  rw [sortedVals, hf]
  simp only [List.insertionSort, List.orderedInsert]
  rw [if_pos (by norm_num : (-1 : ℚ) ≤ 100)]

lemma varDF_quantile :
    nanquantile [some (-1 : ℚ), some 100] (1 - 19/20) = some (81/20) := by
  have hne : sortedVals [some (-1 : ℚ), some 100] ≠ [] := by
    rw [varDF_sorted]
    simp
  rw [nanquantile_some _ _ (by norm_num) (by norm_num) hne, varDF_sorted]
  have hfl : ⌊((1 : ℚ) - 19/20) * ((((-1 : ℚ) :: [(100 : ℚ)]).length : ℚ) - 1)⌋ = 0 := by
    rw [Int.floor_eq_zero_iff]
    constructor <;> norm_num
  rw [interpolate, quantileIdxHigh, quantileIdxLow, hfl]
  norm_num

/-- Counterexample to C7: over the window the equal-weight series is
`[-1, 100]`; it contains a negative return (`-1`, the lowest order
statistic, below the interpolated `0.05`-quantile `81/20`), yet
`historical_var` at the default confidence `0.95` returns `-(81/20) < 0` —
not a non-negative value. -/
theorem historical_var_negative_example :
    portfolio_returns varDF ["A"] 0 1 = some [some (-1 : ℚ), some 100] ∧
    sortedVals [some (-1 : ℚ), some 100] = [-1, 100] ∧
    historical_var varDF ["A"] 0 1 (19/20) = some (some (-(81/20) : ℚ)) ∧
    ((-1 : ℚ) < 0) ∧ ((-1 : ℚ) ≤ 81/20) ∧ ((-(81/20) : ℚ) < 0) := by
  refine ⟨varDF_returns, varDF_sorted, ?_, by norm_num, by norm_num, by norm_num⟩
  simp [historical_var, varDF_returns, varDF_quantile]

/-- Witness for the amended C7 at a concrete input. -/
theorem historical_var_spec_witness :
    (0 : ℚ) ≤ 19/20 ∧ (19/20 : ℚ) ≤ 1 ∧
    portfolio_returns varDF ["A"] 0 1 = some [some (-1 : ℚ), some 100] ∧
    sortedVals [some (-1 : ℚ), some 100] ≠ [] ∧
    ∃ q, nanquantile [some (-1 : ℚ), some 100] (1 - 19/20) = some q ∧
      historical_var varDF ["A"] 0 1 (19/20) = some (some (-q)) ∧
      q ≤ (sortedVals [some (-1 : ℚ), some 100]).getD
        (quantileIdxHigh (sortedVals [some (-1 : ℚ), some 100]).length
          (1 - 19/20)) 0 ∧
      ((sortedVals [some (-1 : ℚ), some 100]).getD
          (quantileIdxHigh (sortedVals [some (-1 : ℚ), some 100]).length
            (1 - 19/20)) 0 ≤ 0 →
        0 ≤ -q) :=
  ⟨by norm_num, by norm_num, varDF_returns,
   fun h => by rw [varDF_sorted] at h; simp at h,
   historical_var_spec varDF ["A"] 0 1 (19/20) (by norm_num) (by norm_num)
     [some (-1 : ℚ), some 100] varDF_returns
     (fun h => by rw [varDF_sorted] at h; simp at h)⟩

end AssetRisk
